/-
Verification of the NE (New Executable) table-walking and symbol-demangling
core of the semblance dump tool, against its specification.

The development shallowly embeds the C functions of src/ne_header.c (the
same functions appear verbatim in the unnamed source variant):

  * get_entry_table : the two-pass bundle walk over the entry/export table
    byte stream (first pass counts, second pass fills), including the
    advisory diagnostic for movable records whose interrupt signature is
    not 0x3fcd;
  * print_specfile / load_exports : specfile line generation and parsing;
  * demangle / demangle_protection / demangle_type : the recursive-descent
    C++ name decoder.

Byte streams are lists of naturals; a read past the end of the stream
yields 0 (the walk of a well-formed table never reads past its
terminating zero count byte).  C strings are lists of their characters
without the terminating NUL; reading the position one past the last
character yields the NUL terminator, and any read beyond that - and any
arithmetic on a NULL strchr/strstr result - is undefined behaviour,
modelled by Option with `none` as the undefined outcome.
-/
import Mathlib

namespace Semblance

/-- One slot of the entry (export) table: struct entry of ne.h, with the
optional name attached later by the name-table readers. calloc zeroes the
array, so the default slot is flags 0, segment 0, offset 0, no name. -/
structure entry where
  flags : Nat
  segment : Nat
  offset : Nat
  name : Option (List Char)
deriving DecidableEq

/-- The data of one advisory diagnostic emitted by get_entry_table:
warn("Entry %d has interrupt bytes %02x %02x ...", count+1, w & 0xff, w >> 16).
(w is a 16-bit word, so the third field is 0 on any real stream.) -/
structure intwarn where
  ordinal : Nat
  byte1 : Nat
  byte2 : Nat
deriving DecidableEq

/-- read_byte at position i of the stream (0 once the stream is exhausted). -/
def byteAt (s : List Nat) (i : Nat) : Nat := s.getD i 0

/-- read_word at position i: two bytes, little endian. -/
def wordAt (s : List Nat) (i : Nat) : Nat := byteAt s i + 256 * byteAt s (i + 1)

/-- Size of one record of a bundle whose type/segment indicator byte is
`index`: 6 bytes for movable (0xff), nothing for placeholders (0x00),
3 bytes otherwise. -/
def rsize (index : Nat) : Nat := if index = 255 then 6 else if index = 0 then 0 else 3

/-- First pass of get_entry_table: walk the bundles, summing the count
bytes, seeking over ((index == 0xff) ? 6 : 3) * length record bytes
whenever index is nonzero, until a zero count byte. -/
def count_pass (s : List Nat) : Nat :=
  if h : byteAt s 0 = 0 then 0
  else
    byteAt s 0 +
      count_pass (s.drop (2 + (if byteAt s 1 ≠ 0 then
        (if byteAt s 1 = 255 then 6 else 3) * byteAt s 0 else 0)))
termination_by s.length
decreasing_by
  cases s with
  | nil => simp [byteAt] at h
  | cons a t => simp only [List.length_drop, List.length_cons]; omega

/-- Second pass, one record: movable records read flags, the interrupt
word (diagnostic when it is not 0x3fcd), segment and offset; placeholder
records read nothing and leave the calloc-zeroed slot; fixed records read
flags and offset, the segment being the bundle's index byte. -/
def fill_record (index cnt : Nat) (s : List Nat) : entry × List intwarn :=
  if index = 255 then
    (⟨byteAt s 0, byteAt s 3, wordAt s 4, none⟩,
     if wordAt s 1 = 0x3fcd then [] else [⟨cnt + 1, wordAt s 1 % 256, wordAt s 1 / 65536⟩])
  else if index = 0 then (⟨0, 0, 0, none⟩, [])
  else (⟨byteAt s 0, index, wordAt s 1, none⟩, [])

/-- Second pass, the for loop over the n records of one bundle; each
record advances the stream by its size and the running entry counter by
one. -/
def fill_records (index : Nat) : Nat → Nat → List Nat → List entry × List intwarn
  | 0, _, _ => ([], [])
  | n + 1, cnt, s =>
    ((fill_record index cnt s).1 :: (fill_records index n (cnt + 1) (s.drop (rsize index))).1,
     (fill_record index cnt s).2 ++ (fill_records index n (cnt + 1) (s.drop (rsize index))).2)

/-- Second pass of get_entry_table: walk the bundles again from the start,
filling entries in order and collecting the advisory diagnostics. -/
def fill_pass (s : List Nat) (cnt : Nat) : List entry × List intwarn :=
  if h : byteAt s 0 = 0 then ([], [])
  else
    ((fill_records (byteAt s 1) (byteAt s 0) cnt (s.drop 2)).1 ++
       (fill_pass (s.drop (2 + rsize (byteAt s 1) * byteAt s 0)) (cnt + byteAt s 0)).1,
     (fill_records (byteAt s 1) (byteAt s 0) cnt (s.drop 2)).2 ++
       (fill_pass (s.drop (2 + rsize (byteAt s 1) * byteAt s 0)) (cnt + byteAt s 0)).2)
termination_by s.length
decreasing_by
  cases s with
  | nil => simp [byteAt] at h
  | cons a t => simp only [List.length_drop, List.length_cons]; omega

/-- get_entry_table starting at the entry-table offset: the decoded
ordinal-indexed entry array (ne->enttab, with ne->entcount its length)
and the advisory diagnostics, in emission order. -/
def get_entry_table (s : List Nat) : List entry × List intwarn := fill_pass s 0

/- Specification-side description of an entry table as a list of bundles,
used to state the claims about get_entry_table over every well-formed
stream. -/

/-- A bundle of the entry table: a placeholder bundle (type byte 0x00,
records absent), a fixed bundle (type byte = logical segment, records are
flags/offset pairs), or a movable bundle (type byte 0xff, records are
flags/interrupt-signature/segment/offset quadruples). -/
inductive bundle where
  | placeholder (n : Nat)
  | fixed (seg : Nat) (recs : List (Nat × Nat))
  | movable (recs : List (Nat × Nat × Nat × Nat))

/-- Byte encoding of one fixed record: flags byte, offset low, offset high. -/
def enc_fixed_rec (r : Nat × Nat) : List Nat := [r.1, r.2 % 256, r.2 / 256]

/-- Byte encoding of one movable record: flags byte, interrupt word (low,
high), segment byte, offset word (low, high). -/
def enc_movable_rec (r : Nat × Nat × Nat × Nat) : List Nat :=
  [r.1, r.2.1 % 256, r.2.1 / 256, r.2.2.1, r.2.2.2 % 256, r.2.2.2 / 256]

/-- Byte encoding of one bundle: count byte, type byte, record bytes. -/
def enc_bundle : bundle → List Nat
  | .placeholder n => [n, 0]
  | .fixed seg recs => recs.length :: seg :: recs.flatMap enc_fixed_rec
  | .movable recs => recs.length :: 255 :: recs.flatMap enc_movable_rec

/-- Byte encoding of an entry table: the bundles followed by the
terminating zero count byte. -/
def encode (bs : List bundle) : List Nat := bs.flatMap enc_bundle ++ [0]

/-- The entry slots a bundle is specified to produce: placeholders keep
the zeroed slot (segment 0, no name), records carry their fields. -/
def bundleEntries : bundle → List entry
  | .placeholder n => List.replicate n ⟨0, 0, 0, none⟩
  | .fixed seg recs => recs.map (fun r => ⟨r.1, seg, r.2, none⟩)
  | .movable recs => recs.map (fun r => ⟨r.1, r.2.2.1, r.2.2.2, none⟩)

/-- Number of ordinal slots a bundle consumes (its count byte). -/
def bundleCount : bundle → Nat
  | .placeholder n => n
  | .fixed _ recs => recs.length
  | .movable recs => recs.length

/-- Well-formedness of a bundle in a stream: a zero count byte would
terminate the table, and a fixed bundle's type byte must not collide with
the placeholder (0x00) or movable (0xff) markers. -/
def bundleOk : bundle → Prop
  | .placeholder n => 0 < n
  | .fixed seg recs => recs ≠ [] ∧ seg ≠ 0 ∧ seg ≠ 255
  | .movable recs => recs ≠ []

/-- The advisory diagnostics of one movable bundle whose first record has
running entry index cnt: one diagnostic per record whose interrupt word
is not 0x3fcd. -/
def movWarns : Nat → List (Nat × Nat × Nat × Nat) → List intwarn
  | _, [] => []
  | cnt, r :: rs =>
    (if r.2.1 = 0x3fcd then [] else [⟨cnt + 1, r.2.1 % 256, r.2.1 / 65536⟩]) ++
      movWarns (cnt + 1) rs

/-- The advisory diagnostics of a whole table of bundles. -/
def tableWarns : Nat → List bundle → List intwarn
  | _, [] => []
  | cnt, b :: bs =>
    (match b with
     | .movable recs => movWarns cnt recs
     | _ => []) ++ tableWarns (cnt + bundleCount b) bs

/- Specfile generation (print_specfile) and parsing (load_exports).  The
file is modelled at line granularity: a specfile is the list of its
lines, each line without its trailing newline. -/

/-- The NUL terminator of a C string. -/
def nulChar : Char := Char.ofNat 0

/-- The characters of a string literal. -/
def toL (s : String) : List Char := s.toList

/-- A digit character, as produced by printf %d. -/
def digitChar (d : Nat) : Char :=
  if d = 0 then '0' else if d = 1 then '1' else if d = 2 then '2' else if d = 3 then '3'
  else if d = 4 then '4' else if d = 5 then '5' else if d = 6 then '6' else if d = 7 then '7'
  else if d = 8 then '8' else '9'

/-- Decimal digits of n, most significant first; the fuel dominates the
number of digits. -/
def decChars : Nat → Nat → List Char
  | 0, _ => []
  | fuel + 1, n =>
    if n < 10 then [digitChar n] else decChars fuel (n / 10) ++ [digitChar (n % 10)]

/-- printf("%d", n) for a nonnegative int: its decimal digits. -/
def natChars (n : Nat) : List Char := decChars (n + 1) n

/-- The body lines of print_specfile's for loop over entries i, i+1, ...:
a name line "<ordinal>TAB<name>" when the slot has a name, otherwise a
bare ordinal line when the slot has a nonzero segment, otherwise nothing. -/
def spec_body : Nat → List entry → List (List Char)
  | _, [] => []
  | i, e :: rest =>
    (match e.name with
     | some nm => [natChars (i + 1) ++ '\t' :: nm]
     | none => if e.segment ≠ 0 then [natChars (i + 1)] else []) ++ spec_body (i + 1) rest

/-- print_specfile: the generated-by comment line followed by one line
per written ordinal. -/
def print_specfile (entries : List entry) : List (List Char) :=
  toL ("# Generated by dumpne -o") :: spec_body 0 entries

/-- One parsed specfile export: struct export of ne.h. -/
structure exportRec where
  ordinal : Nat
  name : Option (List Char)
deriving DecidableEq

/-- C's digit test c >= '0' && c <= '9', by code point. -/
def isDigitC (c : Char) : Bool := 48 ≤ c.toNat && c.toNat ≤ 57

/-- The scanf whitespace class, by code point (space, tab, newline,
vertical tab, form feed, carriage return). -/
def isWS (c : Char) : Bool :=
  c.toNat = 32 || c.toNat = 9 || c.toNat = 10 || c.toNat = 11 || c.toNat = 12 || c.toNat = 13

/-- The leading run of decimal digits. -/
def take_digits : List Char → List Char
  | [] => []
  | c :: rest => if isDigitC c then c :: take_digits rest else []

/-- Value of a digit string, most significant first. -/
def digits_to_nat (l : List Char) : Nat := l.foldl (fun a c => a * 10 + (c.toNat - 48)) 0

/-- sscanf(line, "%hu", &ordinal): skip leading whitespace, read a run of
decimal digits into a 16-bit word (modelled as reduction mod 2^16); fails
when no digit is found. -/
def parse_u (l : List Char) : Option Nat :=
  match take_digits (l.dropWhile isWS) with
  | [] => none
  | ds => some (digits_to_nat ds % 65536)

/-- strchr(line, '\t') followed by p+1: the text after the first tab. -/
def splitTab : List Char → Option (List Char)
  | [] => none
  | c :: rest => if c = '\t' then some rest else splitTab rest

/- The demangler.  A C string is the list of its characters before the
terminating NUL; parsing positions that walk forward from the "@@"
separator are modelled on the suffix starting at that position. -/

/-- Read of position i of the C string s: in-range positions yield the
character, position s.length yields the NUL terminator, any farther read
is out of bounds (undefined). -/
def cstr_get (s : List Char) (i : Nat) : Option Char :=
  if i < s.length then s[i]?
  else if i = s.length then some nulChar else none

/-- strstr(s, "@@"): index of the first occurrence of two consecutive at
signs, none when absent (strstr returns NULL). -/
def find_atat : List Char → Option Nat
  | [] => none
  | c :: rest =>
    if c = '@' ∧ rest.headD nulChar = '@' then some 0
    else (find_atat rest).map (fun j => j + 1)

/-- strchr(s, '@'): index of the first at sign, none when absent. -/
def find_at : List Char → Option Nat
  | [] => none
  | c :: rest => if c = '@' then some 0 else (find_at rest).map (fun j => j + 1)

/-- int_types of ne_header.c: the integer-family type names decoded from
the letters C through K. -/
def int_types : List (List Char) :=
  [toL ("signed char"), toL ("char"), toL ("unsigned char"), toL ("short"),
   toL ("unsigned short"), toL ("int"), toL ("unsigned int"), toL ("long"),
   toL ("unsigned long")]

/-- Bit k of a C int, two's complement: the value of bit tests such as
(type[1] - 'A') & 4 on possibly negative operands. -/
def ibit (x : Int) (k : Nat) : Bool := (x.fdiv (2 ^ k)).emod 2 == 1

/-- demangle_protection on the text after the separator: the returned
length, the text appended to the output buffer, and the value stored
into *prot when one is stored.  none models the undefined executions:
reading past the NUL terminator, or the length arithmetic on a NULL
strchr result in the two escape arms. -/
def demangle_protection : List Char → Option (Nat × List Char × Option Char)
  | [] => some (0, [], none)
  | c :: rest =>
    if 65 ≤ c.toNat ∧ c.toNat ≤ 86 then
      some (1,
        (if (c.toNat - 65) &&& 2 ≠ 0 then toL ("static ") else []) ++
        (if (c.toNat - 65) &&& 4 ≠ 0 then toL ("virtual ") else []) ++
        (if (c.toNat - 65) &&& 1 = 0 then toL ("near ") else []) ++
        (if (c.toNat - 65) &&& 24 = 0 then toL ("private ")
         else if (c.toNat - 65) &&& 24 = 8 then toL ("protected ")
         else if (c.toNat - 65) &&& 24 = 16 then toL ("public ") else []),
        some c)
    else if c = 'Y' then some (1, toL ("near "), none)
    else if c = 'Z' then some (1, [], none)
    else if c = 'X' then
      if isDigitC (rest.headD nulChar) then
        some (2, toL ("(X") ++ [rest.headD nulChar] ++ toL (") "), some 'V')
      else
        match find_at (c :: rest) with
        | some j => some (j + 1, [], some 'V')
        | none => none
    else if c = '_' ∧ rest.headD nulChar ≠ '$' then
      match demangle_protection rest with
      | none => none
      | some (_, iout, iprot) =>
        match cstr_get (c :: rest) 3 with
        | none => none
        | some c3 =>
          if isDigitC c3 then
            some (4, iout ++ toL ("(_") ++ [rest.getD 1 nulChar, c3] ++ toL (") "), iprot)
          else
            match find_at (c :: rest) with
            | some j => some (j + 1, iout, iprot)
            | none => none
    else some (0, [], none)

/-- demangle_type on the text at the current position: the number of
characters processed (0 on an unrecognized type letter) and the text
appended to the output buffer.  none models the undefined executions:
the recursive pointee decode starting past the NUL terminator, or the
U/V aggregate arm finding neither "@@" nor '@'. -/
def demangle_type : List Char → Option (Nat × List Char)
  | [] => some (0, [])
  | c :: rest =>
    if 67 ≤ c.toNat ∧ c.toNat ≤ 75 then
      some (1, int_types.getD (c.toNat - 67) [] ++ [' '])
    else if c = 'A' ∨ c = 'P' then
      match rest with
      | [] => none
      | c2 :: rest2 =>
        match demangle_type rest2 with
        | none => none
        | some (n, t) =>
          some (n + 2,
            (if ibit ((c2.toNat : Int) - 65) 0 then toL ("const ") else []) ++
            (if ibit ((c2.toNat : Int) - 65) 1 then toL ("volatile ") else []) ++
            t ++
            (if ibit ((c2.toNat : Int) - 65) 2 then [] else toL ("near ")) ++
            (if c = 'A' then toL ("&") else toL ("*")))
    else if c = 'M' then some (1, toL ("float "))
    else if c = 'N' then some (1, toL ("double "))
    else if c = 'U' ∨ c = 'V' then
      match find_atat (c :: rest) with
      | some j => some (j, rest.take (j - 1) ++ [' '])
      | none =>
        match find_at (c :: rest) with
        | some j => some (j, rest.take (j - 1) ++ [' '])
        | none => none
    else if c = 'X' then some (1, toL ("void "))
    else some (0, [])

/-- demangle_type at position p of the full string; a start position past
the NUL terminator is an out-of-bounds read. -/
def demangle_type_at (func : List Char) (p : Nat) : Option (Nat × List Char) :=
  if p ≤ func.length then demangle_type (func.drop p) else none

/-- The characters of positions a through b-1. -/
def strSlice (s : List Char) (a b : Nat) : List Char := (s.take b).drop a

/-- The backward classname scan of demangle, reading position i downward
with the current component ending (exclusively) at endIdx: a '?' ends
the scan, an '@' emits the component and "::" and continues below it
with itself as the new end, any other character continues downward.
Running off the front of the string reads func[-1]: undefined. -/
def classname_loop (func : List Char) : Nat → Nat → Option (List Char)
  | endIdx, 0 =>
    match func[0]? with
    | none => none
    | some c => if c = '?' then some (strSlice func 1 endIdx) else none
  | endIdx, i + 1 =>
    match func[i + 1]? with
    | none => none
    | some c =>
      if c = '?' then some (strSlice func (i + 2) endIdx)
      else if c = '@' then
        match classname_loop func (i + 1) i with
        | none => none
        | some rest => some (strSlice func (i + 2) endIdx ++ toL ("::") ++ rest)
      else classname_loop func endIdx i

/-- The argument-list loop of demangle; buf is the whole output buffer
accumulated so far, because the loop's trailing-space strip inspects the
buffer's last character. -/
def args_loop (func : List Char) (p : Nat) (buf : List Char) : Option (List Char) :=
  match h : cstr_get func p with
  | none => none
  | some c =>
    if c = '@' then some buf
    else
      match demangle_type_at func p with
      | none => none
      | some (n, t) =>
        args_loop func (p + (if n = 0 then 1 else n))
          ((if (buf ++ t).getLast? = some ' ' then (buf ++ t).dropLast else buf ++ t) ++
            toL (", "))
termination_by func.length + 1 - p
decreasing_by
  have hp : p ≤ func.length := by
    by_contra hc
    have h1 : ¬ p < func.length := by omega
    have h2 : ¬ p = func.length := by omega
    simp only [cstr_get, if_neg h1, if_neg h2] at h
    exact Option.noConfusion h
  split <;> omega

/-- The test prot >= 'A' && prot <= 'V' && !((prot-'A') & 2): the
protection byte denotes a non-static member (prot is left at 0 when the
protection stage stored nothing). -/
def protection_nonstatic : Option Char → Bool
  | some c => decide (65 ≤ c.toNat ∧ c.toNat ≤ 86 ∧ (c.toNat - 65) &&& 2 = 0)
  | none => false

/-- demangle, the whole decoder.  none models the undefined executions
(no "@@" separator, a read past the terminator, the backward classname
scan running off the front, the final buffer patch underflowing); some r
is the string the caller receives: the original string when the
protection stage returns length 0, otherwise the rebuilt buffer. -/
def demangle (func : List Char) : Option (List Char) :=
  match find_atat func with
  | none => none
  | some j =>
    match demangle_protection (func.drop (j + 2)) with
    | none => none
    | some (len0, buf0, prot) =>
      if len0 = 0 then some func
      else
        match (if protection_nonstatic prot then
                 (cstr_get func (j + 2 + len0)).map (fun _ => j + 2 + len0 + 1)
               else some (j + 2 + len0)) with
        | none => none
        | some p2 =>
          match cstr_get func p2 with
          | none => none
          | some cc =>
            match demangle_type_at func (p2 + 1) with
            | none => none
            | some (nr, tr) =>
              match j with
              | 0 => none
              | jj + 1 =>
                match classname_loop func (jj + 1) jj with
                | none => none
                | some cls =>
                  match cstr_get func (p2 + 1 + (if nr = 0 then 1 else nr)) with
                  | none => none
                  | some ca =>
                    if ca = 'X' then
                      some (buf0 ++ (if cc = 'C' then toL ("__pascal ") else []) ++ tr ++
                        cls ++ toL ("(void)"))
                    else
                      match args_loop func (p2 + 1 + (if nr = 0 then 1 else nr))
                              (buf0 ++ (if cc = 'C' then toL ("__pascal ") else []) ++ tr ++
                                cls ++ toL ("(")) with
                      | none => none
                      | some buf4 =>
                        if buf4.length < 2 then none
                        else some (buf4.dropLast.dropLast ++ toL (")"))

/-- The name-attachment guard of read_res_name_table and load_exports:
demangle is invoked only when demangling is enabled and the name's first
byte is the mangled-name marker. -/
def attach_name (dem : Bool) (name : List Char) : Option (List Char) :=
  if dem ∧ name.headD nulChar = '?' then demangle name else some name

/-- Processing of one specfile line by load_exports's storing loop:
some none when the line is skipped (comment, blank, unparsable ordinal),
some (some r) when a record is stored, none when demangling the name
runs into undefined behaviour. -/
def load_line (dem : Bool) (line : List Char) : Option (Option exportRec) :=
  if line.headD nulChar = '#' ∨ line = [] then some none
  else
    match parse_u line with
    | none => some none
    | some o =>
      match splitTab line with
      | some nm => (attach_name dem nm).map (fun d => some ⟨o, some d⟩)
      | none => some (some ⟨o, none⟩)

/-- load_exports over the lines of a found specfile: the export records
in line order. -/
def load_lines (dem : Bool) : List (List Char) → Option (List exportRec)
  | [] => some []
  | l :: rest =>
    match load_line dem l with
    | none => none
    | some none => load_lines dem rest
    | some (some r) => (load_lines dem rest).map (fun rs => r :: rs)

/-- load_exports with the specfile found and given by its lines. -/
def load_exports (dem : Bool) (lines : List (List Char)) : Option (List exportRec) :=
  load_lines dem lines

/- Claim-side renderings for the specfile claims. -/

/-- Modelled from the claim's words: one line per known ordinal, with
every ordinal of segment 0 omitted. -/
def lineOf_claimed (p : Nat × entry) : List (List Char) :=
  if p.2.segment = 0 then []
  else
    match p.2.name with
    | some nm => [natChars (p.1 + 1) ++ '\t' :: nm]
    | none => [natChars (p.1 + 1)]

/-- The specfile the claim describes. -/
def spec_lines_claimed (entries : List entry) : List (List Char) :=
  toL ("# Generated by dumpne -o") :: entries.enum.flatMap lineOf_claimed

/-- One line per ordinal that has a name or a nonzero segment (the
amended reading): a named ordinal is written even when its segment is 0. -/
def lineOf_amended (p : Nat × entry) : List (List Char) :=
  match p.2.name with
  | some nm => [natChars (p.1 + 1) ++ '\t' :: nm]
  | none => if p.2.segment ≠ 0 then [natChars (p.1 + 1)] else []

/-- The specfile the code actually writes, per the amended claim. -/
def spec_lines_amended (entries : List entry) : List (List Char) :=
  toL ("# Generated by dumpne -o") :: entries.enum.flatMap lineOf_amended

/-- The ordinal-to-name mapping the round-trip claim expects: every
ordinal except those with no segment. -/
def exports_claimed (entries : List entry) : List exportRec :=
  entries.enum.filterMap (fun p => if p.2.segment = 0 then none else some ⟨p.1 + 1, p.2.name⟩)

/-- The mapping the round trip actually reproduces (amended): every named
ordinal, and every unnamed ordinal with a nonzero segment. -/
def round_trip_exports : Nat → List entry → List exportRec
  | _, [] => []
  | i, e :: rest =>
    (match e.name with
     | some nm => [⟨i + 1, some nm⟩]
     | none => if e.segment ≠ 0 then [⟨i + 1, none⟩] else []) ++
      round_trip_exports (i + 1) rest

/-- The written name survives the file round trip as one line: no
embedded newline, and short enough for load_exports's 300-byte fgets
line buffer alongside a five-digit ordinal and the tab. -/
def nameOk (e : entry) : Bool :=
  match e.name with
  | some nm => decide ((¬ '\n' ∈ nm) ∧ nm.length ≤ 292)
  | none => true

/- Helper lemmas about the entry-table walk. -/

theorem fill_records_length (index : Nat) :
    ∀ n cnt s, ((fill_records index n cnt s).1).length = n := by
  intro n
  induction n with
  | zero => intro cnt s; rfl
  | succ k ih => intro cnt s; simp [fill_records, ih]

theorem fill_pass_count_aux :
    ∀ fuel s cnt, s.length < fuel → ((fill_pass s cnt).1).length = count_pass s := by
  intro fuel
  induction fuel with
  | zero => intro s cnt h; omega
  | succ k ih =>
    intro s cnt h
    unfold fill_pass count_pass
    by_cases h0 : byteAt s 0 = 0
    · simp [h0]
    · rw [dif_neg h0, dif_neg h0]
      have hs : s.length ≠ 0 := by
        intro hlen
        apply h0
        cases s with
        | nil => rfl
        | cons a t => simp at hlen
      have hskip : (if byteAt s 1 ≠ 0 then (if byteAt s 1 = 255 then 6 else 3) * byteAt s 0
          else 0) = rsize (byteAt s 1) * byteAt s 0 := by
        by_cases h1 : byteAt s 1 = 0
        · simp [h1, rsize]
        · by_cases h2 : byteAt s 1 = 255 <;> simp [h1, h2, rsize]
      rw [hskip]
      simp only [List.length_append, fill_records_length]
      congr 1
      exact ih _ _ (by simp only [List.length_drop]; omega)

theorem fill_records_placeholder :
    ∀ n cnt s, fill_records 0 n cnt s = (List.replicate n ⟨0, 0, 0, none⟩, []) := by
  intro n
  induction n with
  | zero => intro cnt s; rfl
  | succ k ih => intro cnt s; simp [fill_records, fill_record, ih, List.replicate_succ, rsize]

theorem fill_records_fixed (seg : Nat) (h0 : seg ≠ 0) (h255 : seg ≠ 255) :
    ∀ (recs : List (Nat × Nat)) (cnt : Nat) (tail : List Nat),
      fill_records seg recs.length cnt (recs.flatMap enc_fixed_rec ++ tail) =
        (recs.map (fun r => ⟨r.1, seg, r.2, none⟩), []) := by
  intro recs
  induction recs with
  | nil => intro cnt tail; rfl
  | cons r rs ih =>
    intro cnt tail
    obtain ⟨f, o⟩ := r
    have hrec := ih (cnt + 1) tail
    simp only [List.flatMap_cons, enc_fixed_rec, List.cons_append, List.length_cons,
      List.append_assoc] at hrec ⊢
    simp [fill_records, fill_record, rsize, h0, h255, byteAt, wordAt, hrec,
      Nat.mod_add_div, List.getD]

theorem fill_records_movable :
    ∀ (recs : List (Nat × Nat × Nat × Nat)) (cnt : Nat) (tail : List Nat),
      fill_records 255 recs.length cnt (recs.flatMap enc_movable_rec ++ tail) =
        (recs.map (fun r => ⟨r.1, r.2.2.1, r.2.2.2, none⟩), movWarns cnt recs) := by
  intro recs
  induction recs with
  | nil => intro cnt tail; rfl
  | cons r rs ih =>
    intro cnt tail
    obtain ⟨f, w, sg, o⟩ := r
    have hrec := ih (cnt + 1) tail
    simp only [List.flatMap_cons, enc_movable_rec, List.cons_append, List.length_cons,
      List.append_assoc] at hrec ⊢
    simp [fill_records, fill_record, rsize, byteAt, wordAt, hrec, movWarns,
      Nat.mod_add_div, List.getD]

theorem enc_fixed_len (recs : List (Nat × Nat)) :
    (recs.flatMap enc_fixed_rec).length = 3 * recs.length := by
  induction recs with
  | nil => rfl
  | cons r rs ih => simp [enc_fixed_rec, ih]; omega

theorem enc_movable_len (recs : List (Nat × Nat × Nat × Nat)) :
    (recs.flatMap enc_movable_rec).length = 6 * recs.length := by
  induction recs with
  | nil => rfl
  | cons r rs ih => simp [enc_movable_rec, ih]; omega

theorem byteAt_cons_zero (a : Nat) (l : List Nat) : byteAt (a :: l) 0 = a := rfl

theorem byteAt_cons_succ (a : Nat) (l : List Nat) (n : Nat) :
    byteAt (a :: l) (n + 1) = byteAt l n := rfl

theorem fill_pass_encode :
    ∀ (bs : List bundle) (cnt : Nat), (∀ b ∈ bs, bundleOk b) →
      fill_pass (encode bs) cnt = (bs.flatMap bundleEntries, tableWarns cnt bs) := by
  intro bs
  induction bs with
  | nil =>
    intro cnt _
    unfold fill_pass
    simp [encode, byteAt, tableWarns]
  | cons b bs ih =>
    intro cnt hok
    have hb : bundleOk b := hok b (by simp)
    have hbs : ∀ x ∈ bs, bundleOk x := fun x hx => hok x (by simp [hx])
    have henc : encode (b :: bs) = enc_bundle b ++ encode bs := by
      simp [encode, List.flatMap_cons]
    rw [henc]
    cases b with
    | placeholder n =>
      have hn : ¬ (n = 0) := by simp [bundleOk] at hb; omega
      unfold fill_pass
      simp only [enc_bundle, List.cons_append, List.nil_append]
      rw [dif_neg (by simpa [byteAt_cons_zero] using hn)]
      simp only [byteAt_cons_zero, byteAt_cons_succ,
        show List.drop 2 (n :: 0 :: encode bs) = encode bs from rfl,
        show (2 : Nat) + rsize 0 * n = 2 from by simp [rsize],
        fill_records_placeholder, ih (cnt + n) hbs]
      simp [bundleEntries, tableWarns, bundleCount]
    | fixed seg recs =>
      obtain ⟨hne, h0, h255⟩ := hb
      have hlen : ¬ (recs.length = 0) := by simpa using hne
      unfold fill_pass
      simp only [enc_bundle, List.cons_append]
      rw [dif_neg (by simpa [byteAt] using hlen)]
      have hdrop : ((recs.length :: seg :: (recs.flatMap enc_fixed_rec ++ encode bs)).drop
          (2 + rsize seg * recs.length)) = encode bs := by
        have h3 : rsize seg = 3 := by simp [rsize, h0, h255]
        rw [h3, ← enc_fixed_len recs]
        rw [show (2 : Nat) + (recs.flatMap enc_fixed_rec).length =
              ((recs.flatMap enc_fixed_rec).length + 1) + 1 from by omega]
        simp only [List.drop_succ_cons]
        exact List.drop_left _ _
      simp only [byteAt_cons_zero, byteAt_cons_succ,
        show List.drop 2 (recs.length :: seg :: (recs.flatMap enc_fixed_rec ++ encode bs)) =
          recs.flatMap enc_fixed_rec ++ encode bs from rfl, hdrop]
      rw [fill_records_fixed seg h0 h255 recs cnt (encode bs), ih (cnt + recs.length) hbs]
      simp [bundleEntries, tableWarns, bundleCount]
    | movable recs =>
      have hlen : ¬ (recs.length = 0) := by simpa using hb
      unfold fill_pass
      simp only [enc_bundle, List.cons_append]
      rw [dif_neg (by simpa [byteAt] using hlen)]
      have hdrop : ((recs.length :: 255 :: (recs.flatMap enc_movable_rec ++ encode bs)).drop
          (2 + rsize 255 * recs.length)) = encode bs := by
        have h6 : rsize 255 = 6 := by simp [rsize]
        rw [h6, ← enc_movable_len recs]
        rw [show (2 : Nat) + (recs.flatMap enc_movable_rec).length =
              ((recs.flatMap enc_movable_rec).length + 1) + 1 from by omega]
        simp only [List.drop_succ_cons]
        exact List.drop_left _ _
      simp only [byteAt_cons_zero, byteAt_cons_succ,
        show List.drop 2 (recs.length :: 255 :: (recs.flatMap enc_movable_rec ++ encode bs)) =
          recs.flatMap enc_movable_rec ++ encode bs from rfl, hdrop]
      rw [fill_records_movable recs cnt (encode bs), ih (cnt + recs.length) hbs]
      simp [bundleEntries, tableWarns, bundleCount]

theorem bundleEntries_length (b : bundle) : (bundleEntries b).length = bundleCount b := by
  cases b <;> simp [bundleEntries, bundleCount]

theorem flat_entries_length :
    ∀ bs : List bundle, (bs.flatMap bundleEntries).length = (bs.map bundleCount).sum := by
  intro bs
  induction bs with
  | nil => rfl
  | cons b t ih => simp [bundleEntries_length, ih]

/-- C9: on every byte stream, the total record count computed by
get_entry_table's first pass (count_pass, the sum of the bundle count
bytes found while skipping record bodies by 6 or 3 bytes per record
according to the bundle type) equals the number of entries the second
pass fills over the same stream, so every second-pass write lands inside
the array allocated from the first-pass count. -/
theorem claim_C9 (s : List Nat) : ((get_entry_table s).1).length = count_pass s :=
  fill_pass_count_aux (s.length + 1) s 0 (Nat.lt_succ_self _)

/-- C6: the two-bundle table - bundle 1 with count 2 and type 1 (two
3-byte fixed records), bundle 2 with count 1 and type 0 (one
placeholder), then the terminating zero byte - decodes to three entries:
the first two with segment 1 and the offsets read from their records,
the third with segment 0 and no name. -/
theorem claim_C6 (f1 a1 b1 f2 a2 b2 : Nat) :
    get_entry_table [2, 1, f1, a1, b1, f2, a2, b2, 1, 0, 0] =
      ([⟨f1, 1, a1 + 256 * b1, none⟩, ⟨f2, 1, a2 + 256 * b2, none⟩, ⟨0, 0, 0, none⟩], []) := by
  simp [get_entry_table, fill_pass, fill_records, fill_record, byteAt, wordAt, rsize]

/-- C1: for every well-formed entry table (encoded as bundles), the
entries get_entry_table returns are exactly the records of all bundles
flattened in order - so the k-th record, counting sequentially across
all bundles, lands at array index k-1, its 1-based ordinal being k -
with type-0x00 placeholder slots consuming their ordinals while keeping
segment 0 and no name (bundleEntries of a placeholder); the total length
is the sum of all bundle counts, placeholders included. -/
theorem claim_C1 (bs : List bundle) (h : ∀ b ∈ bs, bundleOk b) :
    (get_entry_table (encode bs)).1 = bs.flatMap bundleEntries ∧
    ((get_entry_table (encode bs)).1).length = (bs.map bundleCount).sum := by
  have he := fill_pass_encode bs 0 h
  refine ⟨?_, ?_⟩ <;> unfold get_entry_table <;> rw [he]
  exact flat_entries_length bs

/-- C1 witness: a fixed bundle of one record followed by a two-slot
placeholder bundle decodes to that record at index 0 and two zeroed
slots. -/
theorem claim_C1_witness :
    (get_entry_table (encode [bundle.fixed 1 [(5, 16)], bundle.placeholder 2])).1 =
      [⟨5, 1, 16, none⟩, ⟨0, 0, 0, none⟩, ⟨0, 0, 0, none⟩] := by
  have h := claim_C1 [bundle.fixed 1 [(5, 16)], bundle.placeholder 2] (by
    intro b hb
    simp only [List.mem_cons, List.not_mem_nil, or_false] at hb
    rcases hb with rfl | rfl
    · exact ⟨by simp, by omega, by omega⟩
    · exact Nat.succ_pos 1)
  rw [h.1]
  rfl

/-- C5: for every well-formed entry table, every movable (type 0xff)
record whose interrupt word is not the expected 0x3fcd still has its
entry populated with exactly the segment and offset stored in the
record (the entry array equals the flattened bundle records, which do
not depend on the interrupt words at all), and the decode emits exactly
one advisory diagnostic per such record - tableWarns lists one intwarn,
carrying the record's 1-based ordinal, for each movable record whose
word differs from 0x3fcd, and nothing else; the walk always continues. -/
theorem claim_C5 (bs : List bundle) (h : ∀ b ∈ bs, bundleOk b) :
    (get_entry_table (encode bs)).1 = bs.flatMap bundleEntries ∧
    (get_entry_table (encode bs)).2 = tableWarns 0 bs := by
  have he := fill_pass_encode bs 0 h
  exact ⟨by unfold get_entry_table; rw [he], by unfold get_entry_table; rw [he]⟩

/-- C5 witness: a movable record with interrupt word 0 (not 0x3fcd) still
decodes to its segment 2 and offset 9, with exactly one diagnostic naming
entry 1. -/
theorem claim_C5_witness :
    (get_entry_table (encode [bundle.movable [(7, 0, 2, 9)]])).1 = [⟨7, 2, 9, none⟩] ∧
    (get_entry_table (encode [bundle.movable [(7, 0, 2, 9)]])).2 = [⟨1, 0, 0⟩] := by
  have h := claim_C5 [bundle.movable [(7, 0, 2, 9)]] (by
    intro b hb
    simp only [List.mem_cons, List.not_mem_nil, or_false] at hb
    subst hb
    simp [bundleOk])
  exact ⟨by rw [h.1]; rfl, by rw [h.2]; rfl⟩

/- Helper lemmas about the decimal rendering and specfile line parsing. -/

theorem digitChar_toNat (d : Nat) (h : d < 10) : (digitChar d).toNat = 48 + d := by
  interval_cases d <;> rfl

theorem decChars_digits :
    ∀ fuel n, ∀ c ∈ decChars fuel n, isDigitC c = true := by
  intro fuel
  induction fuel with
  | zero => intro n c hc; simp [decChars] at hc
  | succ k ih =>
    intro n c hc
    by_cases hn : n < 10
    · simp only [decChars, if_pos hn, List.mem_singleton] at hc
      subst hc
      simp [isDigitC, digitChar_toNat n hn]
      omega
    · simp only [decChars, if_neg hn, List.mem_append, List.mem_singleton] at hc
      rcases hc with hc | hc
      · exact ih _ c hc
      · subst hc
        have h10 : n % 10 < 10 := Nat.mod_lt _ (by omega)
        simp [isDigitC, digitChar_toNat _ h10]
        omega

theorem decChars_ne_nil (fuel n : Nat) : decChars (fuel + 1) n ≠ [] := by
  by_cases hn : n < 10 <;> simp [decChars, hn]

theorem decChars_foldl :
    ∀ fuel n acc, n < 10 ^ fuel →
      List.foldl (fun a c => a * 10 + (c.toNat - 48)) acc (decChars fuel n) =
        acc * 10 ^ (decChars fuel n).length + n := by
  intro fuel
  induction fuel with
  | zero =>
    intro n acc h
    simp [decChars]
    omega
  | succ k ih =>
    intro n acc h
    by_cases hn : n < 10
    · simp only [decChars, if_pos hn, List.foldl_cons, List.foldl_nil, List.length_cons,
        List.length_nil, Nat.zero_add, pow_one, digitChar_toNat n hn]
      omega
    · have hdiv : n / 10 < 10 ^ k := by
        rw [Nat.div_lt_iff_lt_mul (by omega)]
        calc n < 10 ^ (k + 1) := h
        _ ≤ 10 ^ k * 10 := by rw [Nat.pow_succ]
      have h10 : n % 10 < 10 := Nat.mod_lt _ (by omega)
      simp only [decChars, if_neg hn, List.foldl_append, List.foldl_cons, List.foldl_nil,
        List.length_append, List.length_cons, List.length_nil, ih _ acc hdiv,
        digitChar_toNat _ h10]
      have : 10 ^ (0 + 1) = 10 := by norm_num
      rw [Nat.pow_succ]
      have hmod := Nat.mod_add_div n 10
      ring_nf
      omega

theorem natChars_digits (n : Nat) : ∀ c ∈ natChars n, isDigitC c = true :=
  decChars_digits (n + 1) n

theorem natChars_ne_nil (n : Nat) : natChars n ≠ [] := decChars_ne_nil n n

theorem natChars_val (n : Nat) : digits_to_nat (natChars n) = n := by
  have hpow : n < 10 ^ (n + 1) := by
    calc n < 10 ^ n := Nat.lt_pow_self (by omega) n
    _ ≤ 10 ^ (n + 1) := Nat.pow_le_pow_right (by omega) (by omega)
  have h := decChars_foldl (n + 1) n 0 hpow
  simpa [digits_to_nat, natChars] using h

theorem digit_not_ws (c : Char) (h : isDigitC c = true) : isWS c = false := by
  simp only [isDigitC, Bool.and_eq_true, decide_eq_true_eq] at h
  simp only [isWS, Bool.or_eq_false_iff, decide_eq_false_iff_not]
  omega

theorem digit_not_tab (c : Char) (h : isDigitC c = true) : c ≠ '\t' := by
  intro hc
  subst hc
  simp [isDigitC] at h

theorem digit_not_hash (c : Char) (h : isDigitC c = true) : c ≠ '#' := by
  intro hc
  subst hc
  simp [isDigitC] at h

theorem take_digits_all (l : List Char) (h : ∀ c ∈ l, isDigitC c = true) :
    take_digits l = l := by
  induction l with
  | nil => rfl
  | cons c t ih =>
    simp only [take_digits, if_pos (h c (by simp))]
    rw [ih (fun x hx => h x (by simp [hx]))]

theorem take_digits_stop (l : List Char) (r : List Char) (d : Char)
    (h : ∀ c ∈ l, isDigitC c = true) (hd : isDigitC d = false) :
    take_digits (l ++ d :: r) = l := by
  induction l with
  | nil => simp [take_digits, hd]
  | cons c t ih =>
    have ht := ih (fun x hx => h x (by simp [hx]))
    simp only [List.cons_append, take_digits, if_pos (h c (by simp)), List.append_eq, ht]

theorem splitTab_none (l : List Char) (h : ∀ c ∈ l, c ≠ '\t') : splitTab l = none := by
  induction l with
  | nil => rfl
  | cons c t ih =>
    simp only [splitTab, if_neg (h c (by simp))]
    exact ih (fun x hx => h x (by simp [hx]))

theorem splitTab_found (l : List Char) (r : List Char) (h : ∀ c ∈ l, c ≠ '\t') :
    splitTab (l ++ '\t' :: r) = some r := by
  induction l with
  | nil => simp [splitTab]
  | cons c t ih =>
    simp only [List.cons_append, splitTab, if_neg (h c (by simp))]
    exact ih (fun x hx => h x (by simp [hx]))

theorem load_line_name (k : Nat) (hk : k < 65536) (nm : List Char) :
    load_line false (natChars k ++ '\t' :: nm) = some (some ⟨k, some nm⟩) := by
  obtain ⟨c, t, hct⟩ : ∃ c t, natChars k = c :: t := by
    cases h : natChars k with
    | nil => exact absurd h (natChars_ne_nil k)
    | cons c t => exact ⟨c, t, rfl⟩
  have hdigs := natChars_digits k
  have hc : isDigitC c = true := hdigs c (by rw [hct]; simp)
  have htab : ∀ x ∈ natChars k, x ≠ '\t' := fun x hx => digit_not_tab x (hdigs x hx)
  have hsp : splitTab (natChars k ++ '\t' :: nm) = some nm := splitTab_found _ _ htab
  have htd : take_digits ((natChars k ++ '\t' :: nm).dropWhile isWS) = natChars k := by
    conv_lhs => rw [hct]
    rw [List.cons_append, List.dropWhile_cons, digit_not_ws c hc]
    simp only [Bool.false_eq_true, if_false]
    rw [← List.cons_append, ← hct]
    exact take_digits_stop (natChars k) nm '\t' hdigs (by decide)
  have hp : parse_u (natChars k ++ '\t' :: nm) = some k := by
    unfold parse_u
    rw [htd, hct]
    show some (digits_to_nat (c :: t) % 65536) = some k
    rw [← hct, natChars_val, Nat.mod_eq_of_lt hk]
  have hhead : ¬ ((natChars k ++ '\t' :: nm).headD nulChar = '#' ∨
      (natChars k ++ '\t' :: nm) = []) := by
    rw [hct, List.cons_append]
    simp [digit_not_hash c hc]
  unfold load_line
  rw [if_neg hhead]
  simp only [hp, hsp]
  simp [attach_name]

theorem load_line_bare (k : Nat) (hk : k < 65536) :
    load_line false (natChars k) = some (some ⟨k, none⟩) := by
  obtain ⟨c, t, hct⟩ : ∃ c t, natChars k = c :: t := by
    cases h : natChars k with
    | nil => exact absurd h (natChars_ne_nil k)
    | cons c t => exact ⟨c, t, rfl⟩
  have hdigs := natChars_digits k
  have hc : isDigitC c = true := hdigs c (by rw [hct]; simp)
  have htab : ∀ x ∈ natChars k, x ≠ '\t' := fun x hx => digit_not_tab x (hdigs x hx)
  have hsp : splitTab (natChars k) = none := splitTab_none _ htab
  have htd : take_digits ((natChars k).dropWhile isWS) = natChars k := by
    conv_lhs => rw [hct]
    rw [List.dropWhile_cons, digit_not_ws c hc]
    simp only [Bool.false_eq_true, if_false]
    rw [← hct]
    exact take_digits_all (natChars k) hdigs
  have hp : parse_u (natChars k) = some k := by
    unfold parse_u
    rw [htd, hct]
    show some (digits_to_nat (c :: t) % 65536) = some k
    rw [← hct, natChars_val, Nat.mod_eq_of_lt hk]
  have hhead : ¬ ((natChars k).headD nulChar = '#' ∨ (natChars k) = []) := by
    rw [hct]
    simp [digit_not_hash c hc]
  unfold load_line
  rw [if_neg hhead]
  simp only [hp, hsp]

theorem load_spec_body :
    ∀ (entries : List entry) (i : Nat), i + entries.length < 65536 →
      load_lines false (spec_body i entries) = some (round_trip_exports i entries) := by
  intro entries
  induction entries with
  | nil => intro i h; rfl
  | cons e rest ih =>
    intro i h
    have hk : i + 1 < 65536 := by simp only [List.length_cons] at h; omega
    have hr := ih (i + 1) (by simp only [List.length_cons] at h; omega)
    cases hname : e.name with
    | some nm =>
      simp only [spec_body, hname, List.singleton_append, load_lines,
        load_line_name (i + 1) hk nm, hr, round_trip_exports, Option.map_some]
      rfl
    | none =>
      by_cases hseg : e.segment = 0
      · simp [spec_body, hname, hseg, round_trip_exports, hr]
      · simp only [spec_body, hname, hseg, ne_eq, not_false_iff, if_true,
          List.singleton_append, load_lines, load_line_bare (i + 1) hk, hr,
          round_trip_exports, Option.map_some]
        rfl

/-- C4, counterexample to the claim as stated: an ordinal whose entry has
no segment but a name (a placeholder slot later named by a name table) is
written by print_specfile and reproduced by load_exports, while the
claimed mapping (exports_claimed, which excludes every ordinal with no
segment) omits it. -/
theorem claim_C4_cex :
    load_exports false (print_specfile [⟨0, 0, 0, some (toL ("A"))⟩]) ≠
      some (exports_claimed [⟨0, 0, 0, some (toL ("A"))⟩]) := by decide

/-- C4, amended: generating a specfile from an entry table and resolving
it back (demangling off) reproduces the ordinal-to-name mapping of every
ordinal that has a name or a nonzero segment; only ordinals with neither
segment nor name are excluded.  The count bound keeps every written
ordinal inside load_exports's 16-bit word, and nameOk keeps each written
name on one fgets line of the real file. -/
theorem claim_C4 (entries : List entry) (hc : entries.length ≤ 65535)
    (hn : ∀ e ∈ entries, nameOk e = true) :
    load_exports false (print_specfile entries) = some (round_trip_exports 0 entries) := by
  unfold load_exports print_specfile
  have hhdr : load_line false (toL ("# Generated by dumpne -o")) = some none := rfl
  simp only [load_lines, hhdr]
  exact load_spec_body entries 0 (by omega)

/-- C4 witness: a three-entry table (a named export in segment 1, an
unnamed export in segment 2 and a true placeholder) round-trips to the
mapping 1 to Foo and 2 to no name. -/
theorem claim_C4_witness :
    load_exports false (print_specfile
      [⟨0, 1, 16, some (toL ("Foo"))⟩, ⟨0, 2, 32, none⟩, ⟨0, 0, 0, none⟩]) =
      some [⟨1, some (toL ("Foo"))⟩, ⟨2, none⟩] := by
  have h := claim_C4 [⟨0, 1, 16, some (toL ("Foo"))⟩, ⟨0, 2, 32, none⟩, ⟨0, 0, 0, none⟩]
    (by norm_num) (by decide)
  rw [h]
  rfl

/-- C7, counterexample to the claim as stated: print_specfile writes a
line for a named ordinal even when its segment is 0, while the claimed
output (spec_lines_claimed, omitting every ordinal with no segment) has
no such line. -/
theorem claim_C7_cex :
    print_specfile [⟨0, 0, 0, some (toL ("A"))⟩] ≠
      spec_lines_claimed [⟨0, 0, 0, some (toL ("A"))⟩] := by decide

theorem spec_body_enumFrom :
    ∀ (entries : List entry) (i : Nat),
      spec_body i entries = (List.enumFrom i entries).flatMap lineOf_amended := by
  intro entries
  induction entries with
  | nil => intro i; rfl
  | cons e rest ih =>
    intro i
    simp only [spec_body, List.enumFrom_cons, List.flatMap_cons, ih (i + 1)]
    rfl

/-- C7, amended: print_specfile writes, after the generated-by comment
line, one line per ordinal that has a name or a nonzero segment - the
"ordinal TAB name" line whenever the name is known (even when the
segment is 0), otherwise the bare ordinal line - and omits exactly the
ordinals with neither name nor segment. -/
theorem claim_C7 (entries : List entry) :
    print_specfile entries = spec_lines_amended entries := by
  unfold print_specfile spec_lines_amended
  rw [spec_body_enumFrom entries 0]
  rfl

/-- C3: the mangled name "?Foo@Bar@Baz@@YAXXZ" - components Foo, Bar,
Baz stored in reverse order before the "@@" separator, delimited by the
start-of-name marker and at signs - demangles with its qualified name
rendered Baz::Bar::Foo: the backward scan from the separator finds the
components right to left and emits them left to right joined by "::",
stopping at the marker; the full rendering is
"near void Baz::Bar::Foo(void)". -/
theorem claim_C3 :
    demangle (toL ("?Foo@Bar@Baz@@YAXXZ")) = some (toL ("near void Baz::Bar::Foo(void)")) ∧
    classname_loop (toL ("?Foo@Bar@Baz@@YAXXZ")) 12 11 = some (toL ("Baz::Bar::Foo")) := by
  decide

/-- C2, counterexample to the claim as stated: demangle never checks the
mangled-name marker, so a string that does not start with it is not
returned identical - "X?Foo@@YAXXZ" is rewritten to
"near void Foo(void)". -/
theorem claim_C2_cex :
    (toL ("X?Foo@@YAXXZ")).headD nulChar ≠ '?' ∧
    demangle (toL ("X?Foo@@YAXXZ")) ≠ some (toL ("X?Foo@@YAXXZ")) := by decide

/-- C2, amended: a string that reaches the protection stage (its "@@"
separator exists) and fails there - demangle_protection reporting an
unrecognized modifier and returning length 0 - is returned by demangle
exactly as given, with no truncation and no undefined behaviour; and a
string that does not start with the mangled-name marker is returned
unchanged by the name-attachment sites, which invoke demangle only when
the first byte is the marker (demangle itself never checks it). -/
theorem claim_C2 :
    (∀ (func : List Char) (j : Nat) (out : List Char) (prot : Option Char),
        find_atat func = some j →
        demangle_protection (func.drop (j + 2)) = some (0, out, prot) →
        demangle func = some func) ∧
    (∀ (dem : Bool) (name : List Char), name.headD nulChar ≠ '?' →
        attach_name dem name = some name) := by
  constructor
  · intro func j out prot h1 h2
    unfold demangle
    simp only [h1, h2]
    simp
  · intro dem name h
    unfold attach_name
    rw [if_neg (fun hcon => h hcon.2)]

/-- C2 witness: "?f@@w" fails at the protection byte 'w' and is returned
unchanged; "Af" does not start with the marker and passes through the
attachment site unchanged even with demangling enabled. -/
theorem claim_C2_witness :
    demangle (toL ("?f@@w")) = some (toL ("?f@@w")) ∧
    attach_name true (toL ("Af")) = some (toL ("Af")) := by
  constructor
  · exact claim_C2.1 (toL ("?f@@w")) 2 [] none (by decide) (by decide)
  · exact claim_C2.2 true (toL ("Af")) (by decide)

/-- C8: a type string starting with 'A' (reference) or 'P' (pointer)
whose pointee decodes with consumption n > 0 appends, in order, "const "
when bit 0 of (second character - 'A') is set, "volatile " when bit 1 is
set, the recursively decoded pointee text, "near " unless the far bit
(bit 2) is set, and the '&' or '*' sigil; it consumes n + 2 characters. -/
theorem claim_C8 (c c2 : Char) (rest : List Char) (n : Nat) (t : List Char)
    (hc : c = 'A' ∨ c = 'P')
    (hp : demangle_type rest = some (n, t)) (hn : 0 < n) :
    demangle_type (c :: c2 :: rest) = some (n + 2,
      (if ibit ((c2.toNat : Int) - 65) 0 then toL ("const ") else []) ++
      (if ibit ((c2.toNat : Int) - 65) 1 then toL ("volatile ") else []) ++
      t ++
      (if ibit ((c2.toNat : Int) - 65) 2 then [] else toL ("near ")) ++
      (if c = 'A' then toL ("&") else toL ("*"))) := by
  rcases hc with rfl | rfl <;>
  · unfold demangle_type
    rw [if_neg (by decide), if_pos (by decide)]
    simp [hp]

/-- C8 witness: "PAD" is a near pointer to char - the pointee "D"
consumes 1 character, the whole type consumes 3 and renders
"char near *". -/
theorem claim_C8_witness :
    demangle_type (toL ("PAD")) = some (3, toL ("char near *")) := by
  have h := claim_C8 'P' 'A' (toL ("D")) 1 (toL ("char ")) (Or.inr rfl) (by decide) (by decide)
  rw [show toL ("PAD") = 'P' :: 'A' :: toL ("D") from rfl, h]
  decide

/-- C10: demangle is well defined only when the input contains the "@@"
separator: with strstr returning NULL the decoder dereferences NULL + 2
(modelled none); and the protection stage's 'X'-followed-by-non-digit
and '_'-escape arms derive their return length from strchr with no NULL
check, so inputs with no '@' after the escape are undefined too
("Xabc" and "_V7x" both end in the NULL-derived length). -/
theorem claim_C10 :
    (∀ func : List Char, find_atat func = none → demangle func = none) ∧
    demangle_protection (toL ("Xabc")) = none ∧
    demangle_protection (toL ("_V7x")) = none := by
  refine ⟨?_, by decide, by decide⟩
  intro func h
  unfold demangle
  simp only [h]

/-- C10 witness: a name that starts with the mangled-name marker but has
no "@@" separator is undefined (the NULL dereference), not returned
unchanged. -/
theorem claim_C10_witness : demangle (toL ("?NoAtAt")) = none :=
  claim_C10.1 (toL ("?NoAtAt")) (by decide)

end Semblance
